import Mathlib

/-!
Verification of the reconciliation and deletion engine of `webapp_reaper`
(`src/reaper/reaper.py`), shallowly embedded in Lean.

Strings handled by the image-locator matcher are modelled as `List Char`
(so the Python regex semantics of `re.match` over the pattern
`^(?:.*\.azurecr\.io/)?([^:]+):(.+)$` can be stated character by
character); strings that are only used as opaque keys (repository names,
tags, full image names) are modelled as `String`.

External collaborators (the registry tag API, the deletion API, the
manifest API, the web-app metadata API) are passed in as explicit
function parameters, mirroring the way the Python methods call into the
Azure SDK clients held by the `Reaper` object.
-/

/-! ## Image locator matching (`Reaper.extract_web_apps_images`) -/

/-- The literal `.azurecr.io/` that terminates the optional registry-host
prefix in the regex `^(?:.*\.azurecr\.io/)?([^:]+):(.+)$`. -/
def acrMarker : List Char := ['.', 'a', 'z', 'u', 'r', 'e', 'c', 'r', '.', 'i', 'o', '/']

/-- Matcher for the tail pattern `(.+)$` of the regex, applied to the text
after the colon: `.` does not match a newline, and `$` matches at the end
of the input or just before a newline that ends the input. -/
def tagMatch (t : List Char) : Option (List Char) :=
  if t.isEmpty then none
  else if t.all (fun c => c != '\n') then some t
  else if t.getLast? = some '\n' && !t.dropLast.isEmpty && t.dropLast.all (fun c => c != '\n')
  then some t.dropLast
  else none

/-- Matcher for the core pattern `([^:]+):(.+)$` applied to the remainder
after the optional host prefix: `[^:]+` greedily takes the (nonempty) run
of non-colon characters, which must be followed by a colon; shorter runs
are followed by a non-colon character, so backtracking inside `[^:]+`
never produces a different match. -/
def coreMatch (r : List Char) : Option (List Char × List Char) :=
  let repo := r.takeWhile (fun c => c != ':')
  match r.dropWhile (fun c => c != ':') with
  | [] => none
  | _ :: tagPart =>
    if repo.isEmpty then none
    else
      match tagMatch tagPart with
      | some tag => some (repo, tag)
      | none => none

/-- All remainders obtained by stripping the optional host prefix
`(?:.*\.azurecr\.io/)`: one for every position where `.azurecr.io/`
occurs and the text before it is newline-free (so that `.*` can match
it), listed in increasing order of the stripped prefix's length. -/
def candidates : List Char → List (List Char)
  | [] => []
  | c :: rest =>
    (if acrMarker.isPrefixOf (c :: rest) then [(c :: rest).drop acrMarker.length] else []) ++
    (if c = '\n' then [] else candidates rest)

/-- First success of `coreMatch` over a list of candidate remainders;
models the regex engine's backtracking order. -/
def firstMatch : List (List Char) → Option (List Char × List Char)
  | [] => none
  | r :: rest =>
    match coreMatch r with
    | some x => some x
    | none => firstMatch rest

/-- The canonical (repository, tag, full-name) triple returned by
`Reaper.extract_web_apps_images`. -/
structure ImageRef where
  repository : List Char
  tag : List Char
  full_image_name : List Char
deriving DecidableEq

/-- `Reaper.extract_web_apps_images`: an empty locator is rejected;
otherwise the regex `^(?:.*\.azurecr\.io/)?([^:]+):(.+)$` is applied —
the optional greedy host prefix is tried from the longest candidate down
to the shortest, then with no prefix at all — and on a match the full
image name is recomputed as `repository ++ ":" ++ tag`. -/
def extract_web_apps_images (registry_url : List Char) : Option ImageRef :=
  if registry_url.isEmpty then none
  else
    match firstMatch ((candidates registry_url).reverse ++ [registry_url]) with
    | some (repo, tag) => some ⟨repo, tag, repo ++ ':' :: tag⟩
    | none => none

/-! ## Descriptor marker stripping (`Reaper.get_webapps_slots_images`) -/

/-- The container-image marker `DOCKER|` that prefixes a relevant
`linux_fx_version` / `windows_fx_version` descriptor. -/
def dockerMarker : List Char := ['D', 'O', 'C', 'K', 'E', 'R', '|']

/-- Python's `descriptor.replace('DOCKER|', '')`: scan left to right and
delete every non-overlapping occurrence of the marker. -/
def stripDockerAll : List Char → List Char
  | [] => []
  | c :: t =>
    if dockerMarker.isPrefixOf (c :: t) then stripDockerAll (t.drop 6)
    else c :: stripDockerAll t
termination_by s => s.length
decreasing_by
  · simp only [List.length_drop, List.length_cons]
    omega
  · simp only [List.length_cons]
    omega

/-- The descriptor handling of `Reaper.get_webapps_slots_images` (lines
116-124 and the three analogous blocks): a descriptor is relevant only if
it starts with `DOCKER|`; the locator handed to the extractor is the
descriptor with `.replace('DOCKER|', '')` applied. -/
def get_image_url_from_fx (fx_version : List Char) : Option (List Char) :=
  if dockerMarker.isPrefixOf fx_version then some (stripDockerAll fx_version) else none

/-! ## Unused-image identification (`Reaper.identify_unused_images`) -/

/-- `Reaper.identify_unused_images`: for each discovered repository, list
its tags (via the registry client, here the oracle
`get_acr_repository_tags`), keep the tags whose full image name
`repository ++ ":" ++ tag` is not protected, and record an entry only
when at least one unused tag was found. -/
def identify_unused_images (get_acr_repository_tags : String → List String)
    (repositories : List String) (protected_images : List String) :
    List (String × List String) :=
  match repositories with
  | [] => []
  | repository :: rest =>
    let unused_tags := (get_acr_repository_tags repository).filter
      (fun tag => !(protected_images.contains (repository ++ ":" ++ tag)))
    if unused_tags.isEmpty then
      identify_unused_images get_acr_repository_tags rest protected_images
    else
      (repository, unused_tags) ::
        identify_unused_images get_acr_repository_tags rest protected_images

/-! ## Deletion (`Reaper.delete_unused_images`) -/

/-- The per-repository entry of the dictionary built by
`Reaper.delete_unused_images`. -/
structure DeletionResult where
  attempted : Nat
  successful : Nat
  failed : Nat
  errors : List String
deriving DecidableEq

/-- The error message recorded when deleting `repository:tag` raises `e`. -/
def deletionErrMsg (repository tag e : String) : String :=
  "Failed to delete " ++ repository ++ ":" ++ tag ++ ": " ++ e

/-- The inner tag loop of `Reaper.delete_unused_images`. The deletion API
is a state-transforming oracle `delete_tag`, returning `none` on success
and `some e` when it raises exception message `e`. In dry-run mode the
API is never called and the tag is counted as successful; in execute mode
a success increments `successful` and a failure increments `failed` and
appends the error message, and the loop continues. -/
def processTags {σ : Type} (delete_tag : σ → String → String → σ × Option String)
    (dry_run : Bool) (repository : String) :
    List String → σ → DeletionResult → σ × DeletionResult
  | [], s, acc => (s, acc)
  | tag :: rest, s, acc =>
    if dry_run then
      processTags delete_tag dry_run repository rest s
        { acc with successful := acc.successful + 1 }
    else
      match delete_tag s repository tag with
      | (s', none) =>
        processTags delete_tag dry_run repository rest s'
          { acc with successful := acc.successful + 1 }
      | (s', some e) =>
        processTags delete_tag dry_run repository rest s'
          { acc with failed := acc.failed + 1,
                     errors := acc.errors ++ [deletionErrMsg repository tag e] }

/-- `Reaper.delete_unused_images`: for each repository of the unused map
(in order), initialise its result to `attempted = len(tags)`,
`successful = failed = 0`, `errors = []` and run the tag loop, threading
the registry state `σ` through every (execute-mode) deletion call. -/
def delete_unused_images {σ : Type}
    (delete_tag : σ → String → String → σ × Option String)
    (unused_images : List (String × List String)) (dry_run : Bool) (s : σ) :
    σ × List (String × DeletionResult) :=
  match unused_images with
  | [] => (s, [])
  | (repository, tags) :: rest =>
    let first := processTags delete_tag dry_run repository tags s
      ⟨tags.length, 0, 0, []⟩
    let others := delete_unused_images delete_tag rest dry_run first.1
    (others.1, (repository, first.2) :: others.2)

/-! ## Manifest cleanup (`Reaper.cleanup_unused_manifests`) -/

/-- The manifest properties returned by the registry's
`list_manifest_properties`. -/
structure ManifestProps where
  digest : String
  tags : List String
deriving DecidableEq

/-- `Reaper.cleanup_unused_manifests`: for each repository, enumerate its
manifests and classify as deletion candidates exactly those with no tags
pointing to them (`if not manifest.tags`). The returned list is the
candidates `(repository, digest)` in scan order; in dry-run mode they are
only logged, in execute mode each is deleted with per-item failure
isolation, so the candidate classification is mode-independent. -/
def cleanup_unused_manifests (list_manifest_properties : String → List ManifestProps)
    (repositories : List String) : List (String × String) :=
  repositories.flatMap (fun repository =>
    ((list_manifest_properties repository).filter (fun m => m.tags.isEmpty)).map
      (fun m => (repository, m.digest)))

/-! ## Summary (`Reaper.print_summary`) -/

/-- Python's `sorted` on strings: lexicographic by code point. -/
def sortedStrings (l : List String) : List String :=
  l.mergeSort (fun a b => a ≤ b)

/-- The operator-visible content of `Reaper.print_summary`. -/
structure CleanupSummary where
  total_attempted : Nat
  total_successful : Nat
  total_failed : Nat
  protected_images_listed : List String
  per_repository : List (String × DeletionResult)
  repos_with_no_unused : List String
deriving DecidableEq

/-- `Reaper.print_summary`: aggregates the per-repository counts, lists
the protected images sorted, repeats each repository's outcome, and lists
sorted the repositories analysed that have no deletion outcome entry
(`repositories_cleaned - deletion_results.keys()`). -/
def print_summary (deletion_results : List (String × DeletionResult))
    (protected_images : List String) (repositories_cleaned : List String) :
    CleanupSummary :=
  { total_attempted := (deletion_results.map (fun p => p.2.attempted)).sum
    total_successful := (deletion_results.map (fun p => p.2.successful)).sum
    total_failed := (deletion_results.map (fun p => p.2.failed)).sum
    protected_images_listed := sortedStrings protected_images
    per_repository := deletion_results
    repos_with_no_unused := sortedStrings (repositories_cleaned.filter
      (fun r => !((deletion_results.map Prod.fst).contains r))) }

/-! ## Configuration loading (`Reaper.load_configs`) and `main` -/

/-- A parsed JSON value, as produced by Python's `json.load`. -/
inductive Json where
  | null
  | bool (b : Bool)
  | num (n : Int)
  | str (s : String)
  | arr (elems : List Json)
  | obj (fields : List (String × Json))

mutual

/-- Python's `repr` of a parsed JSON value (used by `str` on containers). -/
def pyRepr : Json → String
  | .null => "None"
  | .bool true => "True"
  | .bool false => "False"
  | .num n => toString n
  | .str s => "\x27" ++ s ++ "\x27"
  | .arr xs => "[" ++ pyReprElems xs ++ "]"
  | .obj fs => "\x7b" ++ pyReprFields fs ++ "\x7d"

/-- Comma-separated `repr`s of list elements. -/
def pyReprElems : List Json → String
  | [] => ""
  | [x] => pyRepr x
  | x :: y :: rest => pyRepr x ++ ", " ++ pyReprElems (y :: rest)

/-- Comma-separated `repr`s of object fields. -/
def pyReprFields : List (String × Json) → String
  | [] => ""
  | [(k, v)] => "\x27" ++ k ++ "\x27: " ++ pyRepr v
  | (k, v) :: y :: rest => "\x27" ++ k ++ "\x27: " ++ pyRepr v ++ ", " ++ pyReprFields (y :: rest)

end

/-- Python's `str` of a parsed JSON value, as applied by
`[str(app) for app in config['webApps']]`. -/
def pyStr : Json → String
  | .str s => s
  | v => pyRepr v

/-- The state of the configuration file named by `--config-path`: absent,
present but not valid JSON, or parsed to a JSON value. -/
inductive ConfigFile where
  | missing
  | invalidJson
  | parsed (value : Json)

/-- `Reaper.load_configs`: a missing file raises `FileNotFoundError`,
invalid JSON re-raises `JSONDecodeError`, a non-object document or a
`webApps` field that is not a list raises `ValueError`; an object without
a `webApps` field yields the empty list, and a `webApps` list yields its
elements passed through `str`. -/
def load_configs : ConfigFile → Except String (List String)
  | .missing => .error "FileNotFoundError"
  | .invalidJson => .error "JSONDecodeError"
  | .parsed value =>
    match value with
    | .obj fields =>
      match fields.lookup "webApps" with
      | some (Json.arr apps) => .ok (apps.map pyStr)
      | some _ => .error "ValueError: webApps should be a list."
      | none => .ok []
    | _ => .error "ValueError: Configuration file should contain a JSON object."

/-- The operator-visible outcome of one `main` invocation: the process
exit code, and the repository list the untagged-manifest cleanup pass ran
over (`none` when that pass did not run). -/
structure RunResult where
  exit_code : Nat
  cleanup_repositories : Option (List String)
deriving DecidableEq

/-- The control flow of `main` after argument parsing: any exception from
`load_configs` is caught and the process exits 1; an empty web-app list
or an empty discovered-repository set exits 0 early; otherwise the unused
map is computed and, only when it is nonempty, deletion runs and — if
`--cleanup-manifests` was given — the manifest cleanup pass runs over the
full discovered-repository set; every completed run exits 0. The
collector and registry oracles are total, so no other exception arises
(every provider failure inside them is caught and logged in the source). -/
def main_run (config : ConfigFile)
    (get_all_web_apps_data : List String → List String × List String)
    (get_acr_repository_tags : String → List String)
    (cleanup_manifests : Bool) : RunResult :=
  match load_configs config with
  | .error _ => ⟨1, none⟩
  | .ok web_apps =>
    if web_apps.isEmpty then ⟨0, none⟩
    else
      let data := get_all_web_apps_data web_apps
      let repositories_to_clean := data.2
      if repositories_to_clean.isEmpty then ⟨0, none⟩
      else
        let unused_images := identify_unused_images get_acr_repository_tags
          repositories_to_clean data.1
        if unused_images.isEmpty then ⟨0, none⟩
        else ⟨0, if cleanup_manifests then some repositories_to_clean else none⟩

/-! ## Theorems -/

theorem identify_lookup_eq (g : String → List String) (prot : List String)
    (repos : List String) (R : String) :
    (identify_unused_images g repos prot).lookup R =
      if R ∈ repos ∧ ((g R).filter (fun t => !(prot.contains (R ++ ":" ++ t)))) ≠ []
      then some ((g R).filter (fun t => !(prot.contains (R ++ ":" ++ t))))
      else none := by
  induction repos with
  | nil => simp [identify_unused_images]
  | cons repo rest ih =>
    rw [identify_unused_images]
    by_cases hu : ((g repo).filter (fun t => !(prot.contains (repo ++ ":" ++ t)))) = []
    · rw [if_pos (by simpa using hu), ih]
      by_cases hR : R = repo
      · subst hR
        rw [if_neg (fun h => h.2 hu), if_neg (fun h => h.2 hu)]
      · have hcond : (R ∈ repo :: rest) ↔ (R ∈ rest) := by simp [List.mem_cons, hR]
        by_cases hm : R ∈ rest ∧
            ((g R).filter (fun t => !(prot.contains (R ++ ":" ++ t)))) ≠ []
        · rw [if_pos hm, if_pos ⟨hcond.mpr hm.1, hm.2⟩]
        · rw [if_neg hm, if_neg (fun h => hm ⟨hcond.mp h.1, h.2⟩)]
    · rw [if_neg (by simpa using hu)]
      by_cases hR : R = repo
      · subst hR
        have : List.lookup R ((R, (g R).filter
            (fun t => !(prot.contains (R ++ ":" ++ t)))) ::
              identify_unused_images g rest prot) =
            some ((g R).filter (fun t => !(prot.contains (R ++ ":" ++ t)))) := by
          simp [List.lookup]
        rw [this, if_pos ⟨List.mem_cons_self _ _, hu⟩]
      · have hskip : List.lookup R ((repo, (g repo).filter
            (fun t => !(prot.contains (repo ++ ":" ++ t)))) ::
              identify_unused_images g rest prot) =
            List.lookup R (identify_unused_images g rest prot) := by
          simp [List.lookup, beq_eq_false_iff_ne.mpr hR]
        rw [hskip, ih]
        have hcond : (R ∈ repo :: rest) ↔ (R ∈ rest) := by simp [List.mem_cons, hR]
        by_cases hm : R ∈ rest ∧
            ((g R).filter (fun t => !(prot.contains (R ++ ":" ++ t)))) ≠ []
        · rw [if_pos hm, if_pos ⟨hcond.mpr hm.1, hm.2⟩]
        · rw [if_neg hm, if_neg (fun h => hm ⟨hcond.mp h.1, h.2⟩)]

/-- C1: `identify_unused_images` is the pure per-repository set
difference: a tag `t` of repository `R` lies in the result entry for `R`
iff the full name `R ++ ":" ++ t` is not protected, and `R` has an entry
at all iff it enumerates at least one such unused tag. -/
theorem identify_unused_images_pure_set_difference
    (g : String → List String) (repos : List String) (prot : List String)
    (R t : String) :
    ((∃ l, (identify_unused_images g repos prot).lookup R = some l ∧ t ∈ l) ↔
      (R ∈ repos ∧ t ∈ g R ∧ (R ++ ":" ++ t) ∉ prot)) ∧
    (((identify_unused_images g repos prot).lookup R).isSome ↔
      (R ∈ repos ∧ ∃ t2 ∈ g R, (R ++ ":" ++ t2) ∉ prot)) := by
  have hfil : ∀ t2 : String,
      t2 ∈ (g R).filter (fun t => !(prot.contains (R ++ ":" ++ t))) ↔
        t2 ∈ g R ∧ (R ++ ":" ++ t2) ∉ prot := by
    intro t2
    rw [List.mem_filter]
    constructor
    · rintro ⟨h1, h2⟩
      refine ⟨h1, fun habs => ?_⟩
      rw [Bool.not_eq_true', ← Bool.not_eq_true] at h2
      exact h2 (List.elem_iff.mpr habs)
    · rintro ⟨h1, h2⟩
      refine ⟨h1, ?_⟩
      rw [Bool.not_eq_true', ← Bool.not_eq_true]
      intro habs
      exact h2 (List.elem_iff.mp habs)
  rw [identify_lookup_eq]
  by_cases hc : R ∈ repos ∧ ((g R).filter (fun t => !(prot.contains (R ++ ":" ++ t)))) ≠ []
  · rw [if_pos hc]
    obtain ⟨hmem, hne⟩ := hc
    constructor
    · constructor
      · rintro ⟨l, hl, htl⟩
        obtain rfl : ((g R).filter (fun t => !(prot.contains (R ++ ":" ++ t)))) = l :=
          Option.some.inj hl
        exact ⟨hmem, (hfil t).mp htl⟩
      · rintro ⟨-, htg, hnp⟩
        exact ⟨_, rfl, (hfil t).mpr ⟨htg, hnp⟩⟩
    · simp only [Option.isSome_some, true_iff]
      refine ⟨hmem, ?_⟩
      obtain ⟨t2, ht2⟩ := List.exists_mem_of_ne_nil _ hne
      obtain ⟨h1, h2⟩ := (hfil t2).mp ht2
      exact ⟨t2, h1, h2⟩
  · rw [if_neg hc]
    constructor
    · constructor
      · rintro ⟨l, hl, -⟩
        exact absurd hl (by simp)
      · rintro ⟨hmem, htg, hnp⟩
        have hne : ((g R).filter (fun t => !(prot.contains (R ++ ":" ++ t)))) ≠ [] :=
          fun h0 => by
            have := (hfil t).mpr ⟨htg, hnp⟩
            rw [h0] at this
            exact absurd this (List.not_mem_nil t)
        exact (hc ⟨hmem, hne⟩).elim
    · simp only [Option.isSome_none, Bool.false_eq_true, false_iff]
      rintro ⟨hmem, t2, ht2g, ht2np⟩
      have hne : ((g R).filter (fun t => !(prot.contains (R ++ ":" ++ t)))) ≠ [] :=
        fun h0 => by
          have := (hfil t2).mpr ⟨ht2g, ht2np⟩
          rw [h0] at this
          exact absurd this (List.not_mem_nil t2)
      exact hc ⟨hmem, hne⟩


theorem processTags_dry_run {σ : Type} (delete_tag : σ → String → String → σ × Option String)
    (repository : String) :
    ∀ (tags : List String) (s : σ) (acc : DeletionResult),
      processTags delete_tag true repository tags s acc =
        (s, { acc with successful := acc.successful + tags.length }) := by
  intro tags
  induction tags with
  | nil => intro s acc; simp [processTags]
  | cons tag rest ih =>
    intro s acc
    rw [processTags, if_pos rfl, ih]
    simp only [List.length_cons, Prod.mk.injEq, DeletionResult.mk.injEq]
    exact ⟨trivial, trivial, by omega, trivial, trivial⟩

/-- C3: in dry-run mode `delete_unused_images` never calls the deletion
API — whatever the registry state type and the deletion oracle, the final
state equals the initial one — and every per-repository outcome reports
`successful = attempted = len(tags)` and `failed = 0`. -/
theorem delete_unused_images_dry_run {σ : Type}
    (delete_tag : σ → String → String → σ × Option String)
    (unused_images : List (String × List String)) (s : σ) :
    delete_unused_images delete_tag unused_images true s =
      (s, unused_images.map (fun p => (p.1, ⟨p.2.length, p.2.length, 0, []⟩))) := by
  induction unused_images generalizing s with
  | nil => simp [delete_unused_images]
  | cons p rest ih =>
    obtain ⟨repository, tags⟩ := p
    rw [delete_unused_images]
    simp only [processTags_dry_run, ih, List.map_cons]
    simp

theorem processTags_counts {σ : Type} (delete_tag : σ → String → String → σ × Option String)
    (dry_run : Bool) (repository : String) :
    ∀ (tags : List String) (s : σ) (acc : DeletionResult),
      ∃ (s' : σ) (k f : Nat) (E : List String),
        processTags delete_tag dry_run repository tags s acc =
          (s', ⟨acc.attempted, acc.successful + k, acc.failed + f, acc.errors ++ E⟩) ∧
        k + f = tags.length ∧ E.length = f := by
  intro tags
  induction tags with
  | nil =>
    intro s acc
    exact ⟨s, 0, 0, [], by simp [processTags], by simp, rfl⟩
  | cons tag rest ih =>
    intro s acc
    by_cases hd : dry_run = true
    · subst hd
      rw [processTags, if_pos rfl]
      obtain ⟨s', k, f, E, heq, hkf, hE⟩ :=
        ih s { acc with successful := acc.successful + 1 }
      refine ⟨s', k + 1, f, E, ?_, by simp only [List.length_cons]; omega, hE⟩
      rw [heq]
      simp only [Prod.mk.injEq, DeletionResult.mk.injEq]
      exact ⟨trivial, trivial, by omega, trivial, trivial⟩
    · rw [processTags, if_neg hd]
      rcases hcall : delete_tag s repository tag with ⟨s1, o⟩
      rcases o with _ | e
      · obtain ⟨s', k, f, E, heq, hkf, hE⟩ :=
          ih s1 { acc with successful := acc.successful + 1 }
        refine ⟨s', k + 1, f, E, ?_, by simp only [List.length_cons]; omega, hE⟩
        show processTags delete_tag dry_run repository rest s1
            { acc with successful := acc.successful + 1 } =
          (s', ⟨acc.attempted, acc.successful + (k + 1), acc.failed + f, acc.errors ++ E⟩)
        rw [heq]
        simp only [Prod.mk.injEq, DeletionResult.mk.injEq]
        exact ⟨trivial, trivial, by omega, trivial, trivial⟩
      · obtain ⟨s', k, f, E, heq, hkf, hE⟩ :=
          ih s1 { acc with failed := acc.failed + 1,
                           errors := acc.errors ++ [deletionErrMsg repository tag e] }
        refine ⟨s', k, f + 1, deletionErrMsg repository tag e :: E, ?_,
          by simp only [List.length_cons]; omega, by simp [hE]⟩
        show processTags delete_tag dry_run repository rest s1
            { acc with failed := acc.failed + 1,
                       errors := acc.errors ++ [deletionErrMsg repository tag e] } =
          (s', ⟨acc.attempted, acc.successful + k, acc.failed + (f + 1),
                acc.errors ++ (deletionErrMsg repository tag e :: E)⟩)
        rw [heq]
        simp [List.append_assoc, Prod.mk.injEq, DeletionResult.mk.injEq]
        all_goals omega

/-- C4: for every input map and either mode, every per-repository outcome
of `delete_unused_images` satisfies `attempted = successful + failed` and
`failed = len(errors)`. -/
theorem delete_unused_images_count_invariant {σ : Type}
    (delete_tag : σ → String → String → σ × Option String)
    (unused_images : List (String × List String)) (dry_run : Bool) (s : σ)
    (repository : String) (o : DeletionResult)
    (h : (repository, o) ∈ (delete_unused_images delete_tag unused_images dry_run s).2) :
    o.attempted = o.successful + o.failed ∧ o.failed = o.errors.length := by
  induction unused_images generalizing s with
  | nil => simp [delete_unused_images] at h
  | cons p rest ih =>
    obtain ⟨repo, tags⟩ := p
    rw [delete_unused_images] at h
    simp only [List.mem_cons] at h
    rcases h with h | h
    · obtain ⟨s', k, f, E, heq, hkf, hE⟩ :=
        processTags_counts delete_tag dry_run repo tags s ⟨tags.length, 0, 0, []⟩
      have ho : o = (processTags delete_tag dry_run repo tags s
          ⟨tags.length, 0, 0, []⟩).2 := congrArg Prod.snd h
      rw [heq] at ho
      subst ho
      dsimp only
      exact ⟨by omega, by simp [hE]⟩
    · exact ih _ h

/-- Witness for C4: the invariant holds at the concrete one-repository,
one-tag run whose deletion succeeds. -/
theorem delete_unused_images_count_invariant_witness :
    ("r", (⟨1, 1, 0, []⟩ : DeletionResult)) ∈
      (delete_unused_images (fun (s : Unit) (_ _ : String) => (s, (none : Option String)))
        [("r", ["a"])] false ()).2 ∧
    ((⟨1, 1, 0, []⟩ : DeletionResult).attempted =
        (⟨1, 1, 0, []⟩ : DeletionResult).successful + (⟨1, 1, 0, []⟩ : DeletionResult).failed ∧
      (⟨1, 1, 0, []⟩ : DeletionResult).failed =
        (⟨1, 1, 0, []⟩ : DeletionResult).errors.length) :=
  ⟨by decide, delete_unused_images_count_invariant
    (fun (s : Unit) (_ _ : String) => (s, (none : Option String)))
    [("r", ["a"])] false () "r" ⟨1, 1, 0, []⟩ (by decide)⟩

/-- C5: in execute mode a failing tag is isolated: for a provider that
fails exactly on repository `r0`, tag `t0` (and succeeds on every other
tag), every repository entry still attempts all of its tags, the failing
tag contributes to `failed` together with its descriptive error message,
and every other tag contributes to `successful`. -/
theorem delete_unused_images_failure_isolated {σ : Type}
    (delete_tag : σ → String → String → σ × Option String)
    (r0 t0 e : String)
    (hd : ∀ (s : σ) (r t : String),
      (delete_tag s r t).2 = if r = r0 ∧ t = t0 then some e else none)
    (unused_images : List (String × List String)) (s : σ) :
    (delete_unused_images delete_tag unused_images false s).2 =
      unused_images.map (fun p =>
        (p.1, ⟨p.2.length,
               (p.2.filter (fun t => !(p.1 == r0 && t == t0))).length,
               (p.2.filter (fun t => p.1 == r0 && t == t0)).length,
               (p.2.filter (fun t => p.1 == r0 && t == t0)).map
                 (fun t => deletionErrMsg p.1 t e)⟩)) := by
  have key : ∀ (repository : String) (tags : List String) (s : σ) (acc : DeletionResult),
      (processTags delete_tag false repository tags s acc).2 =
        ⟨acc.attempted,
         acc.successful + (tags.filter (fun t => !(repository == r0 && t == t0))).length,
         acc.failed + (tags.filter (fun t => repository == r0 && t == t0)).length,
         acc.errors ++ (tags.filter (fun t => repository == r0 && t == t0)).map
           (fun t => deletionErrMsg repository t e)⟩ := by
    intro repository tags
    induction tags with
    | nil => intro s acc; simp [processTags]
    | cons tag rest ih =>
      intro s acc
      rw [processTags, if_neg (by simp)]
      rcases hcall : delete_tag s repository tag with ⟨s1, o⟩
      have ho : o = if repository = r0 ∧ tag = t0 then some e else none := by
        have h0 := hd s repository tag
        rw [hcall] at h0
        exact h0
      by_cases hft : repository = r0 ∧ tag = t0
      · rw [if_pos hft] at ho
        subst ho
        have hb : (repository == r0 && tag == t0) = true := by
          simp [hft.1, hft.2]
        show (processTags delete_tag false repository rest s1
            { acc with failed := acc.failed + 1,
                       errors := acc.errors ++ [deletionErrMsg repository tag e] }).2 = _
        rw [ih]
        simp only [List.filter_cons, hb, Bool.not_true, if_neg, List.length_cons,
          List.map_cons, cond_true, cond_false]
        simp [List.append_assoc]
        all_goals omega
      · rw [if_neg hft] at ho
        subst ho
        have hb : (repository == r0 && tag == t0) = false := by
          rcases not_and_or.mp hft with h | h <;> simp [h]
        show (processTags delete_tag false repository rest s1
            { acc with successful := acc.successful + 1 }).2 = _
        rw [ih]
        simp only [List.filter_cons, hb, Bool.not_false, List.length_cons,
          cond_true, cond_false]
        simp [List.append_assoc]
        all_goals omega
  induction unused_images generalizing s with
  | nil => simp [delete_unused_images]
  | cons p rest ih =>
    obtain ⟨repository, tags⟩ := p
    rw [delete_unused_images]
    simp only [List.map_cons]
    show (repository, (processTags delete_tag false repository tags s
        ⟨tags.length, 0, 0, []⟩).2) ::
      (delete_unused_images delete_tag rest false
        (processTags delete_tag false repository tags s ⟨tags.length, 0, 0, []⟩).1).2 = _
    rw [key, ih]
    simp

/-- Witness for C5: with a provider failing exactly on `repoA:v1`, the tag
`v2` of `repoA` and the tag `v3` of `repoB` are still deleted while `v1`
is recorded as failed with its message. -/
theorem delete_unused_images_failure_isolated_witness :
    (delete_unused_images
        (fun (s : Unit) (r t : String) =>
          (s, if r = "repoA" ∧ t = "v1" then some "boom" else none))
        [("repoA", ["v1", "v2"]), ("repoB", ["v3"])] false ()).2 =
      [("repoA", ⟨2, 1, 1, [deletionErrMsg "repoA" "v1" "boom"]⟩),
       ("repoB", ⟨1, 1, 0, []⟩)] := by
  rw [delete_unused_images_failure_isolated
    (fun (s : Unit) (r t : String) =>
      (s, if r = "repoA" ∧ t = "v1" then some "boom" else none))
    "repoA" "v1" "boom" (fun s r t => rfl)
    [("repoA", ["v1", "v2"]), ("repoB", ["v3"])] ()]
  decide

theorem sortedStrings_mem (l : List String) (a : String) :
    a ∈ sortedStrings l ↔ a ∈ l :=
  List.mem_mergeSort

theorem sortedStrings_sorted (l : List String) :
    List.Sorted (fun a b : String => a ≤ b) (sortedStrings l) := by
  have h := @List.sorted_mergeSort String (fun a b => decide (a ≤ b))
    (fun a b c h1 h2 => by
      simp only [decide_eq_true_eq] at h1 h2 ⊢
      exact le_trans h1 h2)
    (fun a b => by rcases le_total a b with h | h <;> simp [h]) l
  exact h.imp (fun hab => of_decide_eq_true hab)

theorem foldl_add_eq_sum_map {α : Type} (f : α → Nat) :
    ∀ (l : List α) (n : Nat), l.foldl (fun m x => m + f x) n = n + (l.map f).sum := by
  intro l
  induction l with
  | nil => intro n; simp
  | cons x rest ih =>
    intro n
    simp only [List.foldl_cons, List.map_cons, List.sum_cons, ih]
    omega

/-- C8: after reporting, the repositories listed as having no unused
images are exactly the analysed repositories without a deletion outcome
entry; the aggregate counters are the sums of the per-repository fields;
and both the protected-image list and the no-unused list are sorted
lexicographically. -/
theorem print_summary_reconstruction
    (deletion_results : List (String × DeletionResult))
    (protected_images : List String) (repositories_cleaned : List String) :
    (∀ r, r ∈ (print_summary deletion_results protected_images
        repositories_cleaned).repos_with_no_unused ↔
      (r ∈ repositories_cleaned ∧ r ∉ deletion_results.map Prod.fst)) ∧
    List.Sorted (fun a b : String => a ≤ b)
      (print_summary deletion_results protected_images
        repositories_cleaned).repos_with_no_unused ∧
    (∀ p, p ∈ (print_summary deletion_results protected_images
        repositories_cleaned).protected_images_listed ↔ p ∈ protected_images) ∧
    List.Sorted (fun a b : String => a ≤ b)
      (print_summary deletion_results protected_images
        repositories_cleaned).protected_images_listed ∧
    (print_summary deletion_results protected_images
        repositories_cleaned).total_attempted =
      deletion_results.foldl (fun n q => n + q.2.attempted) 0 ∧
    (print_summary deletion_results protected_images
        repositories_cleaned).total_successful =
      deletion_results.foldl (fun n q => n + q.2.successful) 0 ∧
    (print_summary deletion_results protected_images
        repositories_cleaned).total_failed =
      deletion_results.foldl (fun n q => n + q.2.failed) 0 := by
  refine ⟨?_, sortedStrings_sorted _, ?_, sortedStrings_sorted _, ?_, ?_, ?_⟩
  · intro r
    rw [print_summary]
    dsimp only
    rw [sortedStrings_mem, List.mem_filter]
    constructor
    · rintro ⟨h1, h2⟩
      refine ⟨h1, fun habs => ?_⟩
      rw [Bool.not_eq_true', ← Bool.not_eq_true] at h2
      exact h2 (List.elem_iff.mpr habs)
    · rintro ⟨h1, h2⟩
      refine ⟨h1, ?_⟩
      rw [Bool.not_eq_true', ← Bool.not_eq_true]
      exact fun habs => h2 (List.elem_iff.mp habs)
  · intro p
    rw [print_summary]
    dsimp only
    exact sortedStrings_mem _ p
  · rw [print_summary, foldl_add_eq_sum_map]
    simp
  · rw [print_summary, foldl_add_eq_sum_map]
    simp
  · rw [print_summary, foldl_add_eq_sum_map]
    simp

/-- Counterexample to C6: with the cleanup option requested but an empty
unused-image map, `main` skips the manifest-cleanup pass entirely (the
call sits inside the `else` branch of `if not unused_images`), so it does
not run over the discovered repository `repo`. -/
theorem cleanup_skipped_when_no_unused_counterexample :
    (main_run (.parsed (.obj [("webApps", .arr [.str "app1"])]))
        (fun _ => (["repo:v1"], ["repo"]))
        (fun _ => ["v1"]) true).cleanup_repositories = none ∧
    (none : Option (List String)) ≠ some ["repo"] := by
  constructor
  · rfl
  · decide

/-- C6 (amended): when the cleanup option is requested and the
unused-image map is nonempty, the cleanup pass runs over every repository
of the full discovered set (not only those with unused tags), and for
each repository it classifies as deletion candidates exactly the
manifests with no tags pointing to them; when the unused-image map is
empty the pass is skipped. -/
theorem cleanup_pass_over_discovered_set
    (config : ConfigFile) (g : List String → List String × List String)
    (tags : String → List String)
    (list_manifest_properties : String → List ManifestProps)
    (web_apps : List String)
    (hok : load_configs config = .ok web_apps)
    (hw : ¬ web_apps.isEmpty = true)
    (hr : ¬ (g web_apps).2.isEmpty = true)
    (hu : ¬ (identify_unused_images tags (g web_apps).2 (g web_apps).1).isEmpty = true) :
    (main_run config g tags true).cleanup_repositories = some (g web_apps).2 ∧
    (∀ (repos : List String) (r d : String),
      (r, d) ∈ cleanup_unused_manifests list_manifest_properties repos ↔
        (r ∈ repos ∧ ∃ m ∈ list_manifest_properties r, m.digest = d ∧ m.tags = [])) := by
  constructor
  · rw [main_run, hok]
    dsimp only
    rw [if_neg hw, if_neg hr, if_neg hu]
    rfl
  · intro repos r d
    rw [cleanup_unused_manifests, List.mem_flatMap]
    constructor
    · rintro ⟨a, ha, hmem⟩
      rw [List.mem_map] at hmem
      obtain ⟨m, hmf, hpair⟩ := hmem
      obtain ⟨hm1, hm2⟩ := List.mem_filter.mp hmf
      obtain ⟨rfl, rfl⟩ : a = r ∧ m.digest = d :=
        ⟨(Prod.mk.injEq .. ▸ hpair).1, (Prod.mk.injEq .. ▸ hpair).2⟩
      exact ⟨ha, m, hm1, rfl, List.isEmpty_iff.mp hm2⟩
    · rintro ⟨hr0, m, hm1, rfl, htags⟩
      refine ⟨r, hr0, ?_⟩
      rw [List.mem_map]
      exact ⟨m, List.mem_filter.mpr ⟨hm1, List.isEmpty_iff.mpr htags⟩, rfl⟩

/-- Witness for the amended C6 at a concrete run: one web app protecting
`repo:v1`, registry tags `[v1, v2]` (so `v2` is unused), cleanup
requested; the pass runs over `[repo]` and classifies the untagged
manifest `sha1` — and only it — as a candidate. -/
theorem cleanup_pass_over_discovered_set_witness :
    (main_run (.parsed (.obj [("webApps", .arr [.str "app1"])]))
        (fun _ => (["repo:v1"], ["repo"]))
        (fun _ => ["v1", "v2"]) true).cleanup_repositories = some ["repo"] ∧
    (("repo", "sha1") ∈ cleanup_unused_manifests
        (fun _ => [⟨"sha1", []⟩, ⟨"sha2", ["v1"]⟩]) ["repo"] ↔
      ("repo" ∈ ["repo"] ∧ ∃ m ∈ [(⟨"sha1", []⟩ : ManifestProps), ⟨"sha2", ["v1"]⟩],
        m.digest = "sha1" ∧ m.tags = [])) := by
  have h := cleanup_pass_over_discovered_set
    (.parsed (.obj [("webApps", .arr [.str "app1"])]))
    (fun _ => (["repo:v1"], ["repo"]))
    (fun _ => ["v1", "v2"])
    (fun _ => [⟨"sha1", []⟩, ⟨"sha2", ["v1"]⟩])
    ["app1"] rfl (by decide) (by decide) (by decide)
  exact ⟨h.1, h.2 ["repo"] "repo" "sha1"⟩

/-- Counterexample to C7: a configuration file that parses to a JSON
object with no `webApps` field is not a fatal setup error — `load_configs`
returns the empty list and the process exits 0, while the claim requires
a non-zero exit. -/
theorem missing_webapps_field_exits_zero :
    (main_run (.parsed (.obj [])) (fun _ => ([], [])) (fun _ => []) false).exit_code = 0 :=
  rfl

/-- C7 (amended): the process exits non-zero exactly on an unrecoverable
setup failure — a configuration file that is missing, is not valid JSON,
is not a JSON object, or whose `webApps` field is present but not a list
— while an object lacking the `webApps` field yields an empty target
list, and every run that completes (including zero targets, zero
discovered repositories, or zero unused images) exits 0. -/
theorem exit_code_amended
    (g : List String → List String × List String)
    (tags : String → List String) (cleanup_manifests : Bool) :
    (main_run .missing g tags cleanup_manifests).exit_code = 1 ∧
    (main_run .invalidJson g tags cleanup_manifests).exit_code = 1 ∧
    (∀ v : Json, (∀ fields, v ≠ .obj fields) →
      (main_run (.parsed v) g tags cleanup_manifests).exit_code = 1) ∧
    (∀ (fields : List (String × Json)) (j : Json),
      fields.lookup "webApps" = some j → (∀ xs, j ≠ .arr xs) →
      (main_run (.parsed (.obj fields)) g tags cleanup_manifests).exit_code = 1) ∧
    (∀ config : ConfigFile, (load_configs config).isOk = true →
      (main_run config g tags cleanup_manifests).exit_code = 0) := by
  refine ⟨rfl, rfl, ?_, ?_, ?_⟩
  · intro v hv
    rcases v with _ | b | n | s | xs | fields
    · rfl
    · rfl
    · rfl
    · rfl
    · rfl
    · exact absurd rfl (hv fields)
  · intro fields j hlook hj
    rw [main_run]
    have : load_configs (.parsed (.obj fields)) =
        .error "ValueError: webApps should be a list." := by
      rw [load_configs, hlook]
      rcases j with _ | b | n | s | xs | fs
      · rfl
      · rfl
      · rfl
      · rfl
      · exact absurd rfl (hj xs)
      · rfl
    rw [this]
  · intro config hok
    rcases hres : load_configs config with e | web_apps
    · rw [hres] at hok
      simp [Except.isOk, Except.toBool] at hok
    · rw [main_run, hres]
      dsimp only
      by_cases h1 : web_apps.isEmpty = true
      · rw [if_pos h1]
      · rw [if_neg h1]
        by_cases h2 : (g web_apps).2.isEmpty = true
        · rw [if_pos h2]
        · rw [if_neg h2]
          by_cases h3 :
            (identify_unused_images tags (g web_apps).2 (g web_apps).1).isEmpty = true
          · rw [if_pos h3]
          · rw [if_neg h3]

/-- Witness for the amended C7: a non-object document and a non-list
`webApps` field exit 1; a well-formed configuration with one target
exits 0. -/
theorem exit_code_amended_witness :
    (main_run (.parsed (.str "oops")) (fun _ => ([], [])) (fun _ => []) false).exit_code = 1 ∧
    (main_run (.parsed (.obj [("webApps", .num 3)]))
      (fun _ => ([], [])) (fun _ => []) false).exit_code = 1 ∧
    (main_run (.parsed (.obj [("webApps", .arr [.str "app1"])]))
      (fun _ => ([], [])) (fun _ => []) false).exit_code = 0 := by
  refine ⟨?_, ?_, ?_⟩
  · exact (exit_code_amended _ _ _).2.2.1 (.str "oops") (fun fields h => nomatch h)
  · exact (exit_code_amended _ _ _).2.2.2.1 [("webApps", .num 3)] (.num 3) rfl
      (fun xs h => nomatch h)
  · exact (exit_code_amended _ _ _).2.2.2.2 (.parsed (.obj [("webApps", .arr [.str "app1"])])) rfl

theorem cand_ne_nil_marker : ∀ s : List Char, candidates s ≠ [] → acrMarker <:+: s := by
  intro s
  induction s with
  | nil => intro h; exact absurd rfl h
  | cons c rest ih =>
    intro h
    rw [candidates] at h
    by_cases hp : acrMarker.isPrefixOf (c :: rest)
    · exact (List.isPrefixOf_iff_prefix.mp hp).isInfix
    · rw [if_neg hp, List.nil_append] at h
      by_cases hnl : c = '\n'
      · rw [if_pos hnl] at h
        exact absurd rfl h
      · rw [if_neg hnl] at h
        exact List.infix_cons (ih h)

theorem candidates_eq_nil {s : List Char} (h : ¬ acrMarker <:+: s) : candidates s = [] := by
  by_contra h0
  exact h (cand_ne_nil_marker s h0)

theorem candidates_marker_append (rest : List Char) (h : ¬ acrMarker <:+: rest) :
    candidates (acrMarker ++ rest) = [rest] := by
  have h0 : candidates rest = [] := candidates_eq_nil h
  show candidates
    ('.' :: 'a' :: 'z' :: 'u' :: 'r' :: 'e' :: 'c' :: 'r' :: '.' :: 'i' :: 'o' :: '/' :: rest) =
    [rest]
  simp [candidates, List.isPrefixOf, acrMarker, h0]

theorem candidates_append_marker (pre rest : List Char) (hpre : ∀ c ∈ pre, c ≠ '\n')
    (h : ¬ acrMarker <:+: rest) :
    ∃ l, candidates (pre ++ (acrMarker ++ rest)) = l ++ [rest] := by
  induction pre with
  | nil => exact ⟨[], by simpa using candidates_marker_append rest h⟩
  | cons c pre' ih =>
    obtain ⟨l, hl⟩ := ih (fun x hx => hpre x (List.mem_cons_of_mem _ hx))
    rw [List.cons_append, candidates, if_neg (hpre c (List.mem_cons_self _ _)), hl]
    exact ⟨(if acrMarker.isPrefixOf (c :: (pre' ++ (acrMarker ++ rest))) then
      [(c :: (pre' ++ (acrMarker ++ rest))).drop acrMarker.length] else []) ++ l,
      by rw [List.append_assoc]⟩

theorem candidates_suffix : ∀ (s r : List Char), r ∈ candidates s → r <:+ s := by
  intro s
  induction s with
  | nil => intro r hr; simp [candidates] at hr
  | cons c rest ih =>
    intro r hr
    rw [candidates] at hr
    rcases List.mem_append.mp hr with h1 | h1
    · by_cases hp : acrMarker.isPrefixOf (c :: rest)
      · rw [if_pos hp] at h1
        simp only [List.mem_singleton] at h1
        subst h1
        exact List.drop_suffix _ _
      · rw [if_neg hp] at h1
        simp at h1
    · by_cases hnl : c = '\n'
      · rw [if_pos hnl] at h1
        simp at h1
      · rw [if_neg hnl] at h1
        exact (ih r h1).trans (List.suffix_cons c rest)

theorem takeWhile_colon_append (a b : List Char) (ha : ∀ c ∈ a, c ≠ ':') :
    (a ++ ':' :: b).takeWhile (fun c => c != ':') = a ∧
    (a ++ ':' :: b).dropWhile (fun c => c != ':') = ':' :: b := by
  induction a with
  | nil => constructor <;> simp [List.takeWhile_cons, List.dropWhile_cons]
  | cons c a' ih =>
    obtain ⟨h1, h2⟩ := ih (fun x hx => ha x (List.mem_cons_of_mem _ hx))
    have hc : (c != ':') = true := bne_iff_ne.mpr (ha c (List.mem_cons_self _ _))
    constructor
    · rw [List.cons_append, List.takeWhile_cons, if_pos hc, h1]
    · rw [List.cons_append, List.dropWhile_cons, if_pos hc, h2]

theorem tagMatch_eq_some (b : List Char) (hbne : b ≠ []) (hbn : ∀ c ∈ b, c ≠ '\n') :
    tagMatch b = some b := by
  rw [tagMatch, if_neg (by simp [List.isEmpty_iff, hbne]),
    if_pos (by rw [List.all_eq_true]; intro c hc; exact bne_iff_ne.mpr (hbn c hc))]

theorem coreMatch_eq_some (a b : List Char) (hane : a ≠ []) (ha : ∀ c ∈ a, c ≠ ':')
    (hbne : b ≠ []) (hbn : ∀ c ∈ b, c ≠ '\n') :
    coreMatch (a ++ ':' :: b) = some (a, b) := by
  obtain ⟨h1, h2⟩ := takeWhile_colon_append a b ha
  rw [coreMatch]
  simp only [h1, h2]
  rw [if_neg (by simp [List.isEmpty_iff, hane]), tagMatch_eq_some b hbne hbn]

theorem coreMatch_eq_none (r : List Char) (h : ∀ c ∈ r, c ≠ ':') : coreMatch r = none := by
  have hdrop : r.dropWhile (fun c => c != ':') = [] :=
    List.dropWhile_eq_nil_iff.mpr (fun x hx => bne_iff_ne.mpr (h x hx))
  rw [coreMatch]
  simp only [hdrop]

theorem firstMatch_none (l : List (List Char)) (h : ∀ r ∈ l, coreMatch r = none) :
    firstMatch l = none := by
  induction l with
  | nil => rfl
  | cons r rest ih =>
    rw [firstMatch, h r (List.mem_cons_self _ _)]
    exact ih (fun x hx => h x (List.mem_cons_of_mem _ hx))

theorem extract_core_only (a b : List Char) (ha : ∀ c ∈ a, c ≠ ':') (hane : a ≠ [])
    (hbne : b ≠ []) (hbn : ∀ c ∈ b, c ≠ '\n') (hinf : ¬ acrMarker <:+: (a ++ ':' :: b)) :
    extract_web_apps_images (a ++ ':' :: b) = some ⟨a, b, a ++ ':' :: b⟩ := by
  rw [extract_web_apps_images, if_neg (by cases a <;> simp)]
  rw [candidates_eq_nil hinf]
  simp only [List.reverse_nil, List.nil_append]
  rw [firstMatch, coreMatch_eq_some a b hane ha hbne hbn]

/-- Counterexample to C2: on the multi-colon locator `a:b:c` the matcher
returns repository `a` — the portion before the FIRST colon — whereas the
claim requires the portion before the last colon, `a:b`. -/
theorem extract_last_colon_counterexample :
    extract_web_apps_images ['a', ':', 'b', ':', 'c'] =
      some ⟨['a'], ['b', ':', 'c'], ['a', ':', 'b', ':', 'c']⟩ ∧
    (['a'] : List Char) ≠ ['a', ':', 'b'] := by
  constructor
  · decide
  · decide

/-- C2 (amended): after stripping the optional registry-host prefix,
`extract_web_apps_images` takes everything up to the FIRST colon as the
repository (which therefore contains no colon) and everything after the
first colon as the tag; an input with no colon fails. Stated for
newline-free tags and inputs without a host-marker occurrence (the
host-present case is the subject of C9). -/
theorem extract_splits_at_first_colon (a b s : List Char) :
    ((∀ c ∈ s, c ≠ ':') → extract_web_apps_images s = none) ∧
    ((∀ c ∈ a, c ≠ ':') → a ≠ [] → b ≠ [] → (∀ c ∈ b, c ≠ '\n') →
      ¬ acrMarker <:+: (a ++ ':' :: b) →
      extract_web_apps_images (a ++ ':' :: b) = some ⟨a, b, a ++ ':' :: b⟩) := by
  constructor
  · intro hs
    rw [extract_web_apps_images]
    by_cases he : s.isEmpty = true
    · rw [if_pos he]
    · rw [if_neg he]
      have hnone : firstMatch ((candidates s).reverse ++ [s]) = none := by
        apply firstMatch_none
        intro r hr
        rcases List.mem_append.mp hr with h1 | h1
        · rw [List.mem_reverse] at h1
          exact coreMatch_eq_none r
            (fun c hc => hs c ((candidates_suffix s r h1).subset hc))
        · simp only [List.mem_singleton] at h1
          subst h1
          exact coreMatch_eq_none r hs
      rw [hnone]
  · intro ha hane hbne hbn hinf
    exact extract_core_only a b ha hane hbne hbn hinf

/-- Witness for the amended C2: a colon-free locator fails, and
`repo:1.0:x` parses to repository `repo` and tag `1.0:x`. -/
theorem extract_splits_at_first_colon_witness :
    extract_web_apps_images ['x', 'y', 'z'] = none ∧
    extract_web_apps_images (['r', 'e', 'p', 'o'] ++ ':' :: ['1', '.', '0', ':', 'x']) =
      some ⟨['r', 'e', 'p', 'o'], ['1', '.', '0', ':', 'x'],
        ['r', 'e', 'p', 'o'] ++ ':' :: ['1', '.', '0', ':', 'x']⟩ := by
  constructor
  · exact (extract_splits_at_first_colon [] [] ['x', 'y', 'z']).1 (by decide)
  · exact (extract_splits_at_first_colon ['r', 'e', 'p', 'o'] ['1', '.', '0', ':', 'x'] []).2
      (by decide) (by decide) (by decide) (by decide) (by decide)

/-- C9: for every valid locator of the form `[host/]repo:tag` — host a
newline-free string ending in the `.azurecr.io` marker, `repo` nonempty
and colon-free, `tag` nonempty and newline-free, and `repo:tag` without a
host-marker occurrence — the matcher yields repository `repo`, tag `tag`,
and a full name recomputed as `repo ++ ":" ++ tag`, identically with
and without the host prefix: `parse(host/s) = parse(s)`. -/
theorem extract_host_prefix_invariance (pre repo tag : List Char)
    (hpre : ∀ c ∈ pre, c ≠ '\n') (hr : ∀ c ∈ repo, c ≠ ':') (hrne : repo ≠ [])
    (htne : tag ≠ []) (htn : ∀ c ∈ tag, c ≠ '\n')
    (hinf : ¬ acrMarker <:+: (repo ++ ':' :: tag)) :
    extract_web_apps_images (pre ++ (acrMarker ++ (repo ++ ':' :: tag))) =
      some ⟨repo, tag, repo ++ ':' :: tag⟩ ∧
    extract_web_apps_images (repo ++ ':' :: tag) = some ⟨repo, tag, repo ++ ':' :: tag⟩ := by
  constructor
  · rw [extract_web_apps_images, if_neg (by cases pre <;> simp [acrMarker])]
    obtain ⟨l, hl⟩ := candidates_append_marker pre (repo ++ ':' :: tag) hpre hinf
    rw [hl, List.reverse_append]
    simp only [List.reverse_cons, List.reverse_nil, List.nil_append, List.cons_append]
    rw [firstMatch, coreMatch_eq_some repo tag hrne hr htne htn]
  · exact extract_core_only repo tag hr hrne htne htn hinf

/-- Witness for C9: `myreg.azurecr.io/app:v1` and `app:v1` parse to the
same `(app, v1, app:v1)` triple. -/
theorem extract_host_prefix_invariance_witness :
    extract_web_apps_images
        (['m', 'y', 'r', 'e', 'g'] ++ (acrMarker ++ (['a', 'p', 'p'] ++ ':' :: ['v', '1']))) =
      some ⟨['a', 'p', 'p'], ['v', '1'], ['a', 'p', 'p'] ++ ':' :: ['v', '1']⟩ ∧
    extract_web_apps_images (['a', 'p', 'p'] ++ ':' :: ['v', '1']) =
      some ⟨['a', 'p', 'p'], ['v', '1'], ['a', 'p', 'p'] ++ ':' :: ['v', '1']⟩ := by
  have h := extract_host_prefix_invariance ['m', 'y', 'r', 'e', 'g'] ['a', 'p', 'p'] ['v', '1']
    (by decide) (by decide) (by decide) (by decide) (by decide) (by decide)
  exact ⟨h.1, h.2⟩

theorem docker_drop_ne_take : ∀ j, 1 ≤ j → j ≤ 6 →
    dockerMarker.drop j ≠ dockerMarker.take (7 - j) := by
  intro j h1 h2
  interval_cases j <;> decide

theorem docker_no_straddle (a' rest : List Char) (hne : a' ≠ [])
    (hnp : ¬ dockerMarker <+: a') :
    dockerMarker.isPrefixOf (a' ++ (dockerMarker ++ rest)) = false := by
  by_contra hb
  rw [Bool.not_eq_false, List.isPrefixOf_iff_prefix] at hb
  have hm : dockerMarker = (a' ++ (dockerMarker ++ rest)).take 7 :=
    List.prefix_iff_eq_take.mp hb
  rw [List.take_append_eq_append_take] at hm
  by_cases hlen : 7 ≤ a'.length
  · rw [Nat.sub_eq_zero_of_le hlen, List.take_zero, List.append_nil] at hm
    exact hnp (hm ▸ List.take_prefix 7 a')
  · push_neg at hlen
    have hj1 : 1 ≤ a'.length := List.length_pos.mpr hne
    have hdl : dockerMarker.length = 7 := rfl
    rw [List.take_of_length_le (by omega : a'.length ≤ 7),
      List.take_append_eq_append_take, hdl,
      Nat.sub_eq_zero_of_le (by omega : 7 - a'.length ≤ 7),
      List.take_zero, List.append_nil] at hm
    have hdrop : dockerMarker.drop a'.length = dockerMarker.take (7 - a'.length) := by
      conv_lhs => rw [hm]
      exact List.drop_left _ _
    exact docker_drop_ne_take a'.length hj1 (by omega) hdrop

theorem stripDockerAll_marker (x : List Char) :
    stripDockerAll (dockerMarker ++ x) = stripDockerAll x := by
  show stripDockerAll ('D' :: 'O' :: 'C' :: 'K' :: 'E' :: 'R' :: '|' :: x) = stripDockerAll x
  rw [stripDockerAll, if_pos (show dockerMarker.isPrefixOf
    ('D' :: 'O' :: 'C' :: 'K' :: 'E' :: 'R' :: '|' :: x) = true from
    List.isPrefixOf_iff_prefix.mpr (List.prefix_append _ _))]
  simp [List.drop]

theorem stripDockerAll_no_marker :
    ∀ (b : List Char), ¬ dockerMarker <:+: b → stripDockerAll b = b := by
  intro b
  induction b with
  | nil => intro h; simp [stripDockerAll]
  | cons c t ih =>
    intro h
    rw [stripDockerAll,
      if_neg (fun hp => h (List.isPrefixOf_iff_prefix.mp hp).isInfix),
      ih (fun hi => h (List.infix_cons hi))]

theorem stripDockerAll_append_marker :
    ∀ (a x : List Char), ¬ dockerMarker <:+: a →
      stripDockerAll (a ++ (dockerMarker ++ x)) = a ++ stripDockerAll (dockerMarker ++ x) := by
  intro a
  induction a with
  | nil => intro x h; simp
  | cons c a' ih =>
    intro x h
    have hfalse : dockerMarker.isPrefixOf ((c :: a') ++ (dockerMarker ++ x)) = false :=
      docker_no_straddle (c :: a') x (by simp)
        (fun hp => h hp.isInfix)
    rw [List.cons_append, stripDockerAll,
      if_neg (by
        rw [show c :: (a' ++ (dockerMarker ++ x)) = (c :: a') ++ (dockerMarker ++ x) from rfl,
          hfalse]
        simp),
      ih x (fun hi => h (List.infix_cons hi))]
    exact rfl

/-- C10: a descriptor recognised by its `DOCKER|` prefix has EVERY
occurrence of `DOCKER|` removed, not only the leading one: for a
descriptor `DOCKER| ++ a ++ DOCKER| ++ b` (with no further marker
occurrence inside `a` or `b`), the locator handed to the matcher is
`a ++ b`, which differs from the first-occurrence-only result
`a ++ DOCKER| ++ b`. -/
theorem docker_marker_replace_all (a b : List Char)
    (hA : ¬ dockerMarker <:+: a) (hB : ¬ dockerMarker <:+: b) :
    get_image_url_from_fx (dockerMarker ++ (a ++ (dockerMarker ++ b))) = some (a ++ b) ∧
    a ++ b ≠ a ++ (dockerMarker ++ b) := by
  constructor
  · rw [get_image_url_from_fx,
      if_pos (List.isPrefixOf_iff_prefix.mpr (List.prefix_append _ _)),
      stripDockerAll_marker, stripDockerAll_append_marker a b hA,
      stripDockerAll_marker, stripDockerAll_no_marker b hB]
  · intro h
    have hlen := congrArg List.length h
    simp [dockerMarker] at hlen
    omega

/-- Witness for C10 at the spec's example descriptor
`DOCKER|repo:DOCKER|tag`: the locator handed on is `repo:tag`. -/
theorem docker_marker_replace_all_witness :
    get_image_url_from_fx
        (dockerMarker ++ (['r', 'e', 'p', 'o', ':'] ++ (dockerMarker ++ ['t', 'a', 'g']))) =
      some (['r', 'e', 'p', 'o', ':'] ++ ['t', 'a', 'g']) ∧
    ['r', 'e', 'p', 'o', ':'] ++ ['t', 'a', 'g'] ≠
      ['r', 'e', 'p', 'o', ':'] ++ (dockerMarker ++ ['t', 'a', 'g']) :=
  docker_marker_replace_all ['r', 'e', 'p', 'o', ':'] ['t', 'a', 'g'] (by decide) (by decide)
